import Mathlib

/-!
Verification of the repository-state classification and commit-graph layout
engine of `GITS/bin/git_python_gui.py`, shallowly embedded in Lean 4.

The embedding mirrors the Python source:
* `decode` is the elif chain of `update_file_status_cache_enhanced` that maps
  a two-character porcelain status code to a semantic status (`none` means the
  path is clean and no entry is emitted into the snapshot);
* the snapshot is modelled as an insertion-ordered association list, matching
  a Python `dict`;
* folder aggregation models `get_folder_git_status`;
* the commit-graph merge and sort model `draw_commit_graph`;
* the timeline models `draw_vertical_timeline`;
* highlight expiry models `clear_file_highlights`.
-/

/-- Semantic file statuses, matching the string constants of the source
(`CONFLICTED`, `MODIFIED_STAGED`, `STAGED`, `MODIFIED`, `NEW`, `RENAMED`,
`COPIED`, `DELETED`; `CLEAN` denotes absence from the cache). -/
inductive FileStatus where
  | CONFLICTED
  | MODIFIED_STAGED
  | STAGED
  | MODIFIED
  | NEW
  | RENAMED
  | COPIED
  | DELETED
  | CLEAN
deriving DecidableEq, Repr

/-- The elif chain of `update_file_status_cache_enhanced` on a two-character
status code `c0 c1`. Returns `none` when no branch matches, i.e. no cache
entry is written for the path. All branches of the source, including the
trailing `RENAMED` / `COPIED` / `DELETED` ones, are kept. -/
def decode (c0 c1 : Char) : Option FileStatus :=
  if c0 = 'U' ∧ c1 = 'U' then some .CONFLICTED
  else if c0 = 'A' ∧ c1 = 'A' then some .CONFLICTED
  else if c0 = 'D' ∧ c1 = 'D' then some .CONFLICTED
  else if c0 ∈ ['M', 'A', 'D', 'R', 'C'] then
    if c1 ∈ ['M', 'D'] then some .MODIFIED_STAGED
    else some .STAGED
  else if c1 ∈ ['M', 'D'] then some .MODIFIED
  else if c1 = '?' then some .NEW
  else if c0 = 'R' then some .RENAMED
  else if c0 = 'C' then some .COPIED
  else if c0 = 'D' ∨ c1 = 'D' then some .DELETED
  else none

/-- The documented porcelain status alphabet (spec section 4.1). -/
def statusAlphabet : List Char := [' ', 'M', 'A', 'D', 'R', 'C', 'U', '?', '!']

/-- Priority table of spec section 4.1 for codes that are not decoded as
conflicted, written from the spec's words (rules 2 to 6) so it can be compared
with `decode`, the definition taken from the source. -/
def specDecodeTable (c0 c1 : Char) : Option FileStatus :=
  if c0 ∈ ['M', 'A', 'D', 'R', 'C'] ∧ c1 ∈ ['M', 'D'] then some .MODIFIED_STAGED
  else if c0 ∈ ['M', 'A', 'D', 'R', 'C'] then some .STAGED
  else if c1 ∈ ['M', 'D'] then some .MODIFIED
  else if c1 = '?' then some .NEW
  else none

/-- Python `not line.strip()`: the line is empty or consists of whitespace. -/
def pyStripEmpty (line : String) : Bool :=
  line.data.all Char.isWhitespace

/-- Python `os.path.join(a, b)` for POSIX paths, as used by the source to glue
`repo_path` and the relative path of a status line. -/
def pyPathJoin (a b : String) : String :=
  if b.data.head? = some '/' then b
  else if a.data = [] then b
  else if a.data.getLast? = some '/' then a ++ b
  else a ++ "/" ++ b

/-- Python `d[k] = v` on an insertion-ordered dict, modelled on an association
list: an existing key is overwritten in place, a new key is appended. -/
def dictInsert (cache : List (String × FileStatus)) (k : String) (v : FileStatus) :
    List (String × FileStatus) :=
  if cache.any (fun e => e.1 == k) then
    cache.map (fun e => if e.1 == k then (k, v) else e)
  else cache ++ [(k, v)]

/-- The loop body of `update_file_status_cache_enhanced`, one call per status
line, including the exception behaviour: a non-blank line shorter than two
characters raises `IndexError` at `status_code[1]`, which the source's single
`try` block around the whole loop turns into an abort of the remaining lines.
The `Bool` component records whether the loop was aborted by such an
exception. -/
def processLines (repoPath : String) :
    List String → List (String × FileStatus) → List (String × FileStatus) × Bool
  | [], cache => (cache, false)
  | line :: rest, cache =>
    if pyStripEmpty line then processLines repoPath rest cache
    else
      match line.data with
      | c0 :: c1 :: _ =>
          match decode c0 c1 with
          | some st =>
              processLines repoPath rest
                (dictInsert cache (pyPathJoin repoPath (line.drop 3)) st)
          | none => processLines repoPath rest cache
      | _ => (cache, true)

/-- Python `status_output.split('\n')`. -/
def splitPyLines (s : String) : List String :=
  (List.splitOn '\n' s.data).map List.asString

/-- The whole of `update_file_status_cache_enhanced`: the source first rebinds
`self.file_status_cache` to a fresh empty dict (discarding `oldCache`), then
runs the loop over `status_output.split('\n')` inside one `try` block whose
handler only sets an error label. -/
def update_file_status_cache_enhanced (_oldCache : List (String × FileStatus))
    (repoPath statusOutput : String) : List (String × FileStatus) × Bool :=
  processLines repoPath (splitPyLines statusOutput) []

/-- One line of the snapshot build as the spec describes it: decode the line
and insert it if it yields a status, skip it otherwise (also when it is blank
or too short). Written from the spec's words (sections 4.1 and 4.2,
skip-and-continue on malformed lines) to be compared with `processLines`, the
definition taken from the source. -/
def specInsertLine (repoPath : String) (cache : List (String × FileStatus))
    (line : String) : List (String × FileStatus) :=
  if pyStripEmpty line then cache
  else
    match line.data with
    | c0 :: c1 :: _ =>
        match decode c0 c1 with
        | some st => dictInsert cache (pyPathJoin repoPath (line.drop 3)) st
        | none => cache
    | _ => cache

/-- The snapshot build as the spec describes it: every line decoded, malformed
lines skipped, never an abort. -/
def buildSnapshotSpec (repoPath : String) (lines : List String) :
    List (String × FileStatus) :=
  lines.foldl (specInsertLine repoPath) []

/-- A status line makes the source's loop body raise `IndexError`: it is not
blank (so it is not skipped) and it has fewer than two characters (so
`status_code[1]` is out of range). -/
def lineRaises (line : String) : Bool :=
  !pyStripEmpty line && decide (line.data.length < 2)

/-- One character list starts with another. -/
def charsStartWith : List Char → List Char → Bool
  | _, [] => true
  | [], _ :: _ => false
  | a :: as, b :: bs => a == b && charsStartWith as bs

/-- Python `s.startswith(pre)` on the character lists of the two strings. -/
def pyStartsWith (s pre : String) : Bool :=
  charsStartWith s.data pre.data

/-- The source's `get_folder_git_status`: one pass over the cache sets the
three flags `has_new`, `has_modified`, `has_staged` for entries whose path
starts with the folder path, then the result is chosen with staged first,
then modified, then new, else clean. Entries with any other status
(conflicted in particular) set no flag. -/
def get_folder_git_status (cache : List (String × FileStatus))
    (folderPath : String) : FileStatus :=
  let hasNew := cache.any fun e =>
    pyStartsWith e.1 folderPath && (e.2 == FileStatus.NEW)
  let hasModified := cache.any fun e =>
    pyStartsWith e.1 folderPath && (e.2 == FileStatus.MODIFIED)
  let hasStaged := cache.any fun e =>
    pyStartsWith e.1 folderPath &&
      (e.2 == FileStatus.STAGED || e.2 == FileStatus.MODIFIED_STAGED)
  if hasStaged then .STAGED
  else if hasModified then .MODIFIED
  else if hasNew then .NEW
  else .CLEAN

/-- Precedence of a status in the folder aggregate, from the spec's fixed
order: staged and modified-staged highest, then modified, then new; every
other status counts as clean. -/
def statusPrec : FileStatus → Nat
  | .STAGED => 3
  | .MODIFIED_STAGED => 3
  | .MODIFIED => 2
  | .NEW => 1
  | _ => 0

/-- Precedence contributed by one cache entry to a folder: its status
precedence when its path lies under the folder, zero otherwise. -/
def entryPrec (folderPath : String) (e : String × FileStatus) : Nat :=
  if pyStartsWith e.1 folderPath then statusPrec e.2 else 0

/-- Highest precedence among the cache entries lying under a folder. -/
def maxPrecUnder (cache : List (String × FileStatus)) (folderPath : String) : Nat :=
  cache.foldr (fun e acc => max (entryPrec folderPath e) acc) 0

/-- Folder aggregation as the spec describes it: the status of highest
precedence among the entries under the folder, written from the spec's words
(section 3, `FolderAggregate`) to be compared with `get_folder_git_status`,
the definition taken from the source. -/
def aggregateSpec (cache : List (String × FileStatus)) (folderPath : String) :
    FileStatus :=
  match maxPrecUnder cache folderPath with
  | 3 => .STAGED
  | 2 => .MODIFIED
  | 1 => .NEW
  | _ => .CLEAN

/-- A commit as the graph builder consumes it: identity is the hash, ordering
uses the committed timestamp. -/
structure CommitRef where
  hexsha : String
  timestamp : Int
deriving DecidableEq, Repr

/-- A graph node: a commit plus the list of branches whose history contains
it, in the order the builder encountered them. -/
structure CommitNode where
  commit : CommitRef
  branches : List String
deriving DecidableEq, Repr

/-- The inner loop body of `draw_commit_graph`: on first sight of a hash a
node is created with this branch as its only member; on a later sight from
another enumeration the branch name is appended to the existing node, and no
node is duplicated. -/
def addCommit (branchName : String) (acc : List CommitNode) (c : CommitRef) :
    List CommitNode :=
  if acc.any (fun n => n.commit.hexsha == c.hexsha) then
    acc.map (fun n =>
      if n.commit.hexsha == c.hexsha then
        { n with branches := n.branches ++ [branchName] }
      else n)
  else acc ++ [{ commit := c, branches := [branchName] }]

/-- The two nested loops of `draw_commit_graph` that merge all per-branch
commit lists into the `all_commits` dict, modelled as an insertion-ordered
node list. -/
def foldAllBranches (branchHistories : List (String × List CommitRef))
    (acc : List CommitNode) : List CommitNode :=
  branchHistories.foldl (fun a b => b.2.foldl (addCommit b.1) a) acc

/-- The merged, deduplicated node collection of `draw_commit_graph`. -/
def mergeBranchCommits (branchHistories : List (String × List CommitRef)) :
    List CommitNode :=
  foldAllBranches branchHistories []

/-- Python `sorted(nodes, key=lambda x: x.committed_datetime, reverse=True)`:
a stable sort, newest first; entries with equal timestamps keep their
relative order. Stability and sortedness determine the output uniquely, so a
stable insertion sort models Python's stable sort exactly. -/
def sortNodesByDateDesc (nodes : List CommitNode) : List CommitNode :=
  nodes.insertionSort (fun a b => b.commit.timestamp ≤ a.commit.timestamp)

/-- The `sorted_commits` list of `draw_commit_graph`: merge, deduplicate,
then sort by date descending. -/
def draw_commit_graph_nodes (branchHistories : List (String × List CommitRef)) :
    List CommitNode :=
  sortNodesByDateDesc (mergeBranchCommits branchHistories)

/-- The hash sequence of a node list. -/
def nodeHashes (nodes : List CommitNode) : List String :=
  nodes.map (fun n => n.commit.hexsha)

/-- Lexicographic order on character lists, mirroring Python string
comparison. -/
def charListLe : List Char → List Char → Bool
  | [], _ => true
  | _ :: _, [] => false
  | a :: as, b :: bs => if a = b then charListLe as bs else decide (a < b)

/-- Lexicographic order on the characters of two strings. -/
def hashLe (x y : String) : Bool :=
  charListLe x.data y.data

/-- `draw_vertical_timeline`: the timeline is
`list(reversed(list(self.repo.iter_commits(max_count=100))))` — the exact
reverse of the commit sequence the external client delivers. -/
def draw_vertical_timeline_commits (allCommits : List CommitRef) : List CommitRef :=
  allCommits.reverse

/-- The graph builder's default ordering applied to a plain commit sequence:
`sorted(..., key=committed_datetime, reverse=True)`. -/
def sortCommitsByDateDesc (commits : List CommitRef) : List CommitRef :=
  commits.insertionSort (fun a b => b.timestamp ≤ a.timestamp)

/-- The styling tags the source's file tree uses for highlighted entries. -/
def highlightTags : List String :=
  ["new_file", "modified_file", "staged_file", "modified_staged_file"]

/-- Python `self.file_status_cache.get(file_path, 'CLEAN')`. -/
def cacheGet (cache : List (String × FileStatus)) (k : String) : FileStatus :=
  match cache.find? (fun e => e.1 == k) with
  | some e => e.2
  | none => FileStatus.CLEAN

/-- The state `clear_file_highlights` acts on: the file-tree rows of the
selected folder, as pairs of file name and current styling tag, and the
`highlighted_files` set. -/
structure HighlightState where
  fileTreeItems : List (String × String)
  highlightedFiles : List String
deriving DecidableEq, Repr

/-- The body of `clear_file_highlights`, the callback that
`schedule_highlight_clear` fires after the fixed 5000 ms delay: every row
whose tag is a highlight tag and whose current status in the cache is clean
is restyled with the clean tag; rows still non-clean keep their tag; then
`self.highlighted_files.clear()` empties the highlighted set entirely. -/
def clear_file_highlights (cache : List (String × FileStatus))
    (folderPath : String) (s : HighlightState) : HighlightState :=
  { fileTreeItems := s.fileTreeItems.map fun it =>
      if highlightTags.contains it.2 &&
          (cacheGet cache (pyPathJoin folderPath it.1) == FileStatus.CLEAN) then
        (it.1, "clean_file")
      else it,
    highlightedFiles := [] }

/-- A status the snapshot build can emit. -/
def GoodStatus (st : FileStatus) : Prop :=
  st = FileStatus.CONFLICTED ∨ st = FileStatus.MODIFIED_STAGED ∨
  st = FileStatus.STAGED ∨ st = FileStatus.MODIFIED ∨ st = FileStatus.NEW

/-- C1: the claim says every code with a `U` on either side is conflicted; the
source only treats `UU`, `AA` and `DD` so, and `UM` decodes to `MODIFIED`. -/
theorem decode_UM_not_conflicted :
    decode 'U' 'M' = some FileStatus.MODIFIED ∧
    decode 'U' 'M' ≠ some FileStatus.CONFLICTED := by
  constructor <;> decide

/-- C1 (amended): the decoder maps exactly the codes `UU`, `AA` and `DD` to
`CONFLICTED`, and these three cases take priority over every other decoding
rule; a code in which only one character is `U` falls through to the later
rules. -/
theorem decode_conflicted_iff (c0 c1 : Char) :
    decode c0 c1 = some FileStatus.CONFLICTED ↔
      ((c0 = 'U' ∧ c1 = 'U') ∨ (c0 = 'A' ∧ c1 = 'A') ∨ (c0 = 'D' ∧ c1 = 'D')) := by
  unfold decode
  split_ifs <;> simp_all

/-- C2: on the documented alphabet, every code not decoded as `CONFLICTED` is
decoded exactly as the spec's priority table prescribes: first character in
`{M,A,D,R,C}` with second in `{M,D}` gives `MODIFIED_STAGED`; first character
in `{M,A,D,R,C}` alone gives `STAGED`; second character in `{M,D}` alone gives
`MODIFIED`; second character `?` gives `NEW`; otherwise no entry is emitted
(the path is clean). -/
theorem decode_matches_spec_table (c0 c1 : Char)
    (h0 : c0 ∈ statusAlphabet) (h1 : c1 ∈ statusAlphabet)
    (hnc : decode c0 c1 ≠ some FileStatus.CONFLICTED) :
    decode c0 c1 = specDecodeTable c0 c1 := by
  fin_cases h0 <;> fin_cases h1 <;> first
    | rfl
    | exact absurd rfl hnc

/-- C2 witness: instantiation at the code `' M'`. -/
theorem decode_matches_spec_table_witness :
    ' ' ∈ statusAlphabet ∧ 'M' ∈ statusAlphabet ∧
    decode ' ' 'M' ≠ some FileStatus.CONFLICTED ∧
    decode ' ' 'M' = specDecodeTable ' ' 'M' :=
  ⟨by decide, by decide, by decide,
    decode_matches_spec_table ' ' 'M' (by decide) (by decide) (by decide)⟩

/-- Case analysis on the decoder's possible results: the trailing `RENAMED`,
`COPIED` and `DELETED` branches never fire. -/
theorem decode_range_cases (c0 c1 : Char) :
    decode c0 c1 = none ∨
    decode c0 c1 = some FileStatus.CONFLICTED ∨
    decode c0 c1 = some FileStatus.MODIFIED_STAGED ∨
    decode c0 c1 = some FileStatus.STAGED ∨
    decode c0 c1 = some FileStatus.MODIFIED ∨
    decode c0 c1 = some FileStatus.NEW := by
  unfold decode
  split_ifs <;> simp_all

/-- Sanity check: the spec's example change lines produce the expected
snapshot and no abort. -/
example :
    processLines "r" ["M  file1.txt", " M file2.txt", "?? file3.txt", "UU file4.txt"] [] =
      ([("r/file1.txt", FileStatus.STAGED), ("r/file2.txt", FileStatus.MODIFIED),
        ("r/file3.txt", FileStatus.NEW), ("r/file4.txt", FileStatus.CONFLICTED)], false) := by
  decide

/-- On a run of lines none of which raises, the loop of the source agrees with
the spec's skip-and-continue build and does not abort. -/
theorem processLines_ok (repoPath : String) (lines : List String) :
    ∀ cache : List (String × FileStatus),
      (∀ l ∈ lines, lineRaises l = false) →
      processLines repoPath lines cache =
        (lines.foldl (specInsertLine repoPath) cache, false) := by
  induction lines with
  | nil => intro cache _; rfl
  | cons line rest ih =>
      intro cache h
      have hline : lineRaises line = false := h line (by simp)
      have hrest : ∀ l ∈ rest, lineRaises l = false := fun l hl => h l (by simp [hl])
      by_cases hb : pyStripEmpty line = true
      · simp only [processLines, specInsertLine, hb, if_true, List.foldl_cons]
        exact ih _ hrest
      · have hb' : pyStripEmpty line = false := by
          cases hx : pyStripEmpty line
          · rfl
          · exact absurd hx hb
        have hlen : 2 ≤ line.data.length := by
          unfold lineRaises at hline
          rw [hb'] at hline
          simp only [Bool.not_false, Bool.true_and, decide_eq_false_iff_not,
            Nat.not_lt] at hline
          exact hline
        obtain ⟨c0, c1, t, hd⟩ : ∃ c0 c1 t, line.data = c0 :: c1 :: t := by
          match hx : line.data with
          | [] => rw [hx] at hlen; simp at hlen
          | [c] => rw [hx] at hlen; simp at hlen
          | a :: b :: t => exact ⟨a, b, t, rfl⟩
        simp only [processLines, specInsertLine, List.foldl_cons, hb', hd,
          Bool.false_eq_true, if_false]
        cases hdec : decode c0 c1 with
        | none => exact ih _ hrest
        | some st => exact ih _ hrest

/-- A raising line aborts the loop at once: the cache stays as it was and the
abort flag is set, whatever lines follow. -/
theorem processLines_stops (repoPath bad : String) (hbad : lineRaises bad = true)
    (post : List String) (cache : List (String × FileStatus)) :
    processLines repoPath (bad :: post) cache = (cache, true) := by
  have hb : pyStripEmpty bad = false := by
    unfold lineRaises at hbad
    cases hx : pyStripEmpty bad
    · rfl
    · rw [hx] at hbad; simp at hbad
  have hlen : bad.data.length < 2 := by
    unfold lineRaises at hbad
    rw [hb] at hbad
    simpa using hbad
  match hx : bad.data with
  | [] =>
      simp only [processLines, hb, Bool.false_eq_true, if_false, hx]
  | [c] =>
      simp only [processLines, hb, Bool.false_eq_true, if_false, hx]
  | a :: b :: t =>
      rw [hx] at hlen
      simp only [List.length_cons] at hlen
      omega

/-- Processing a non-raising prefix followed by anything first folds the
prefix into the cache, then continues with the remainder. -/
theorem processLines_append_ok (repoPath : String) (pre : List String) :
    ∀ cache : List (String × FileStatus),
      (∀ l ∈ pre, lineRaises l = false) →
      ∀ rest : List String,
        processLines repoPath (pre ++ rest) cache =
          processLines repoPath rest (pre.foldl (specInsertLine repoPath) cache) := by
  induction pre with
  | nil => intro cache _ rest; rfl
  | cons line p ih =>
      intro cache h rest
      have hline : lineRaises line = false := h line (by simp)
      have hp : ∀ l ∈ p, lineRaises l = false := fun l hl => h l (by simp [hl])
      by_cases hb : pyStripEmpty line = true
      · simp only [List.cons_append, processLines, specInsertLine, hb, if_true,
          List.foldl_cons]
        exact ih _ hp rest
      · have hb' : pyStripEmpty line = false := by
          cases hx : pyStripEmpty line
          · rfl
          · exact absurd hx hb
        have hlen : 2 ≤ line.data.length := by
          unfold lineRaises at hline
          rw [hb'] at hline
          simp only [Bool.not_false, Bool.true_and, decide_eq_false_iff_not,
            Nat.not_lt] at hline
          exact hline
        obtain ⟨c0, c1, t, hd⟩ : ∃ c0 c1 t, line.data = c0 :: c1 :: t := by
          match hx : line.data with
          | [] => rw [hx] at hlen; simp at hlen
          | [c] => rw [hx] at hlen; simp at hlen
          | a :: b :: t => exact ⟨a, b, t, rfl⟩
        simp only [List.cons_append, processLines, specInsertLine, List.foldl_cons,
          hb', hd, Bool.false_eq_true, if_false]
        cases hdec : decode c0 c1 with
        | none => exact ih _ hp rest
        | some st => exact ih _ hp rest

/-- C6 counterexample: one malformed line does not merely lose itself. In the
input `["M  a.txt", "X", "A  b.txt"]` the single-character line `X` raises,
and the well-formed line `A  b.txt` after it is not decoded and not inserted,
although the spec-described skip-and-continue build contains it. -/
theorem processLines_bad_line_drops_rest :
    lineRaises "X" = true ∧
    ("r/b.txt", FileStatus.STAGED) ∈ buildSnapshotSpec "r" ["M  a.txt", "X", "A  b.txt"] ∧
    ("r/b.txt", FileStatus.STAGED) ∉ (processLines "r" ["M  a.txt", "X", "A  b.txt"] []).1 := by
  refine ⟨by decide, by decide, by decide⟩

/-- C6 (amended): a malformed (wrong-length) line does not crash the build —
the surrounding handler catches the raised error — but it aborts the loop:
every well-formed line before it is decoded and inserted exactly as the
skip-and-continue build prescribes, and every line after it is dropped. -/
theorem processLines_partial_on_bad_line (repoPath : String)
    (pre : List String) (bad : String) (post : List String)
    (hpre : ∀ l ∈ pre, lineRaises l = false) (hbad : lineRaises bad = true) :
    processLines repoPath (pre ++ bad :: post) [] =
      (buildSnapshotSpec repoPath pre, true) := by
  rw [processLines_append_ok repoPath pre [] hpre (bad :: post),
    processLines_stops repoPath bad hbad post]
  rfl

/-- C6 witness: instantiation at the counterexample input. -/
theorem processLines_partial_on_bad_line_witness :
    processLines "r" (["M  a.txt"] ++ "X" :: ["A  b.txt"]) [] =
      (buildSnapshotSpec "r" ["M  a.txt"], true) :=
  processLines_partial_on_bad_line "r" ["M  a.txt"] "X" ["A  b.txt"]
    (by decide) (by decide)

/-- C7 counterexample: the rebuild is not an atomic wholesale replacement.
With previous snapshot `{r/z.txt: MODIFIED}` and status output
`"M  a.txt\nX\nA  b.txt"`, the rebuild fails partway (the `X` line raises)
and the cache afterwards holds a partially built snapshot: neither the
complete old snapshot nor the complete new one. -/
theorem update_cache_not_atomic :
    (update_file_status_cache_enhanced [("r/z.txt", FileStatus.MODIFIED)] "r"
        "M  a.txt\nX\nA  b.txt").2 = true ∧
    (update_file_status_cache_enhanced [("r/z.txt", FileStatus.MODIFIED)] "r"
        "M  a.txt\nX\nA  b.txt").1 ≠ [("r/z.txt", FileStatus.MODIFIED)] ∧
    (update_file_status_cache_enhanced [("r/z.txt", FileStatus.MODIFIED)] "r"
        "M  a.txt\nX\nA  b.txt").1 ≠
      buildSnapshotSpec "r" (splitPyLines "M  a.txt\nX\nA  b.txt") := by
  refine ⟨by decide, by decide, by decide⟩

/-- C7 (amended): the rebuild discards the previous snapshot up front and
builds the new one in place, so its result never depends on the previous
snapshot: when no line raises, the cache afterwards is the complete new
snapshot; when the rebuild fails partway at a raising line, the cache
afterwards holds exactly the entries built from the lines before the failure
— a partial snapshot — and not the previous snapshot's content. -/
theorem update_cache_replaces_wholesale (oldCache : List (String × FileStatus))
    (repoPath statusOutput : String) :
    ((∀ l ∈ splitPyLines statusOutput, lineRaises l = false) →
      update_file_status_cache_enhanced oldCache repoPath statusOutput =
        (buildSnapshotSpec repoPath (splitPyLines statusOutput), false)) ∧
    (∀ pre bad post, splitPyLines statusOutput = pre ++ bad :: post →
      (∀ l ∈ pre, lineRaises l = false) → lineRaises bad = true →
      update_file_status_cache_enhanced oldCache repoPath statusOutput =
        (buildSnapshotSpec repoPath pre, true)) := by
  constructor
  · intro h
    unfold update_file_status_cache_enhanced
    exact processLines_ok repoPath (splitPyLines statusOutput) [] h
  · intro pre bad post hsplit hpre hbad
    unfold update_file_status_cache_enhanced
    rw [hsplit, processLines_append_ok repoPath pre [] hpre (bad :: post),
      processLines_stops repoPath bad hbad post]
    rfl

/-- C7 witness: instantiation of both parts at concrete inputs. -/
theorem update_cache_replaces_wholesale_witness :
    update_file_status_cache_enhanced [("r/z.txt", FileStatus.MODIFIED)] "r"
        "M  a.txt" = (buildSnapshotSpec "r" (splitPyLines "M  a.txt"), false) ∧
    update_file_status_cache_enhanced [("r/z.txt", FileStatus.MODIFIED)] "r"
        "M  a.txt\nX\nA  b.txt" = (buildSnapshotSpec "r" ["M  a.txt"], true) :=
  ⟨(update_cache_replaces_wholesale [("r/z.txt", FileStatus.MODIFIED)] "r"
      "M  a.txt").1 (by decide),
   (update_cache_replaces_wholesale [("r/z.txt", FileStatus.MODIFIED)] "r"
      "M  a.txt\nX\nA  b.txt").2 ["M  a.txt"] "X" ["A  b.txt"]
      (by decide) (by decide) (by decide)⟩

/-- Every status has precedence at most three. -/
theorem statusPrec_le_three (st : FileStatus) : statusPrec st ≤ 3 := by
  cases st <;> simp [statusPrec]

/-- Every entry contributes precedence at most three. -/
theorem entryPrec_le_three (folderPath : String) (e : String × FileStatus) :
    entryPrec folderPath e ≤ 3 := by
  unfold entryPrec
  split
  · exact statusPrec_le_three _
  · omega

/-- Upper bound for the folded maximum from a pointwise bound. -/
theorem maxPrecUnder_ub (folderPath : String) (k : Nat)
    (cache : List (String × FileStatus))
    (h : ∀ e ∈ cache, entryPrec folderPath e ≤ k) :
    maxPrecUnder cache folderPath ≤ k := by
  induction cache with
  | nil => simp [maxPrecUnder]
  | cons e rest ih =>
      simp only [maxPrecUnder, List.foldr_cons] at ih ⊢
      exact max_le (h e (by simp)) (ih fun x hx => h x (by simp [hx]))

/-- Each entry bounds the folded maximum from below. -/
theorem maxPrecUnder_lb (folderPath : String)
    (cache : List (String × FileStatus)) (e : String × FileStatus)
    (he : e ∈ cache) :
    entryPrec folderPath e ≤ maxPrecUnder cache folderPath := by
  induction cache with
  | nil => cases he
  | cons x rest ih =>
      simp only [maxPrecUnder, List.foldr_cons] at ih ⊢
      rcases List.mem_cons.mp he with h | h
      · subst h; exact le_max_left _ _
      · exact le_trans (ih h) (le_max_right _ _)

/-- The staged flag of the source holds of an entry exactly when the entry
contributes precedence three. -/
theorem stagedFlag_iff_prec (folderPath : String) (e : String × FileStatus) :
    (pyStartsWith e.1 folderPath &&
        (e.2 == FileStatus.STAGED || e.2 == FileStatus.MODIFIED_STAGED)) = true ↔
      entryPrec folderPath e = 3 := by
  obtain ⟨q, st⟩ := e
  unfold entryPrec
  by_cases hs : pyStartsWith q folderPath = true
  · cases st <;> simp [hs, statusPrec]
  · have hs' : pyStartsWith q folderPath = false := by
      cases hx : pyStartsWith q folderPath
      · rfl
      · exact absurd hx hs
    simp [hs']

/-- The modified flag of the source holds of an entry exactly when the entry
contributes precedence two. -/
theorem modifiedFlag_iff_prec (folderPath : String) (e : String × FileStatus) :
    (pyStartsWith e.1 folderPath && (e.2 == FileStatus.MODIFIED)) = true ↔
      entryPrec folderPath e = 2 := by
  obtain ⟨q, st⟩ := e
  unfold entryPrec
  by_cases hs : pyStartsWith q folderPath = true
  · cases st <;> simp [hs, statusPrec]
  · have hs' : pyStartsWith q folderPath = false := by
      cases hx : pyStartsWith q folderPath
      · rfl
      · exact absurd hx hs
    simp [hs']

/-- The new flag of the source holds of an entry exactly when the entry
contributes precedence one. -/
theorem newFlag_iff_prec (folderPath : String) (e : String × FileStatus) :
    (pyStartsWith e.1 folderPath && (e.2 == FileStatus.NEW)) = true ↔
      entryPrec folderPath e = 1 := by
  obtain ⟨q, st⟩ := e
  unfold entryPrec
  by_cases hs : pyStartsWith q folderPath = true
  · cases st <;> simp [hs, statusPrec]
  · have hs' : pyStartsWith q folderPath = false := by
      cases hx : pyStartsWith q folderPath
      · rfl
      · exact absurd hx hs
    simp [hs']

/-- The source's flag-based folder scan computes exactly the spec's
highest-precedence aggregate. -/
theorem get_folder_git_status_eq_spec (cache : List (String × FileStatus))
    (folderPath : String) :
    get_folder_git_status cache folderPath = aggregateSpec cache folderPath := by
  have hub : maxPrecUnder cache folderPath ≤ 3 :=
    maxPrecUnder_ub folderPath 3 cache (fun e _ => entryPrec_le_three folderPath e)
  unfold get_folder_git_status aggregateSpec
  by_cases h3 : (cache.any fun e =>
      pyStartsWith e.1 folderPath &&
        (e.2 == FileStatus.STAGED || e.2 == FileStatus.MODIFIED_STAGED)) = true
  · obtain ⟨e, he, hf⟩ := List.any_eq_true.mp h3
    have hp := (stagedFlag_iff_prec folderPath e).mp hf
    have hm : maxPrecUnder cache folderPath = 3 :=
      le_antisymm hub (hp ▸ maxPrecUnder_lb folderPath cache e he)
    simp [h3, hm]
  · have h3' : ∀ e ∈ cache, entryPrec folderPath e ≠ 3 := fun e he hcon =>
      h3 (List.any_eq_true.mpr ⟨e, he, (stagedFlag_iff_prec folderPath e).mpr hcon⟩)
    have hub2 : maxPrecUnder cache folderPath ≤ 2 :=
      maxPrecUnder_ub folderPath 2 cache (fun e he => by
        have h1 := entryPrec_le_three folderPath e
        have h2 := h3' e he
        omega)
    by_cases h2 : (cache.any fun e =>
        pyStartsWith e.1 folderPath && (e.2 == FileStatus.MODIFIED)) = true
    · obtain ⟨e, he, hf⟩ := List.any_eq_true.mp h2
      have hp := (modifiedFlag_iff_prec folderPath e).mp hf
      have hm : maxPrecUnder cache folderPath = 2 :=
        le_antisymm hub2 (hp ▸ maxPrecUnder_lb folderPath cache e he)
      simp [h3, h2, hm]
    · have h2' : ∀ e ∈ cache, entryPrec folderPath e ≠ 2 := fun e he hcon =>
        h2 (List.any_eq_true.mpr ⟨e, he, (modifiedFlag_iff_prec folderPath e).mpr hcon⟩)
      have hub1 : maxPrecUnder cache folderPath ≤ 1 :=
        maxPrecUnder_ub folderPath 1 cache (fun e he => by
          have ha := entryPrec_le_three folderPath e
          have hb := h3' e he
          have hc := h2' e he
          omega)
      by_cases h1 : (cache.any fun e =>
          pyStartsWith e.1 folderPath && (e.2 == FileStatus.NEW)) = true
      · obtain ⟨e, he, hf⟩ := List.any_eq_true.mp h1
        have hp := (newFlag_iff_prec folderPath e).mp hf
        have hm : maxPrecUnder cache folderPath = 1 :=
          le_antisymm hub1 (hp ▸ maxPrecUnder_lb folderPath cache e he)
        simp [h3, h2, h1, hm]
      · have h1' : ∀ e ∈ cache, entryPrec folderPath e ≠ 1 := fun e he hcon =>
          h1 (List.any_eq_true.mpr ⟨e, he, (newFlag_iff_prec folderPath e).mpr hcon⟩)
        have hm : maxPrecUnder cache folderPath = 0 := by
          have := maxPrecUnder_ub folderPath 0 cache (fun e he => by
            have ha := entryPrec_le_three folderPath e
            have hb := h3' e he
            have hc := h2' e he
            have hd := h1' e he
            omega)
          omega
        simp [h3, h2, h1, hm]

/-- C3: for every snapshot and folder path the source's folder aggregate
equals the highest-precedence status among the entries whose path lies under
the folder, under the fixed precedence staged / modified-staged over modified
over new over clean; and it is monotonic: adding a new-file entry under a
folder that already aggregates to staged leaves the aggregate staged. -/
theorem folder_aggregate_correct :
    (∀ (cache : List (String × FileStatus)) (folderPath : String),
      get_folder_git_status cache folderPath = aggregateSpec cache folderPath) ∧
    (∀ (cache : List (String × FileStatus)) (folderPath p : String),
      get_folder_git_status cache folderPath = FileStatus.STAGED →
      get_folder_git_status ((p, FileStatus.NEW) :: cache) folderPath =
        FileStatus.STAGED) := by
  constructor
  · exact get_folder_git_status_eq_spec
  · intro cache folderPath p h
    unfold get_folder_git_status at h ⊢
    by_cases hst : (cache.any fun e =>
        pyStartsWith e.1 folderPath &&
          (e.2 == FileStatus.STAGED || e.2 == FileStatus.MODIFIED_STAGED)) = true
    · simp [hst]
    · exfalso
      simp only [hst, if_false, Bool.false_eq_true] at h
      split_ifs at h

/-- C3 witness: a snapshot with one staged file under `a/` keeps aggregating
to staged after a new file is added under `a/`. -/
theorem folder_aggregate_correct_witness :
    get_folder_git_status [("a/x.txt", FileStatus.STAGED)] "a/" = FileStatus.STAGED ∧
    get_folder_git_status [("a/y.txt", FileStatus.NEW), ("a/x.txt", FileStatus.STAGED)]
      "a/" = FileStatus.STAGED :=
  ⟨by decide,
    folder_aggregate_correct.2 [("a/x.txt", FileStatus.STAGED)] "a/" "a/y.txt"
      (by decide)⟩

/-- Adding a commit never changes the hash sequence except by appending the
new hash when it was absent. -/
theorem addCommit_hashes (branchName : String) (acc : List CommitNode)
    (c : CommitRef) :
    nodeHashes (addCommit branchName acc c) =
      if acc.any (fun n => n.commit.hexsha == c.hexsha) then nodeHashes acc
      else nodeHashes acc ++ [c.hexsha] := by
  unfold addCommit nodeHashes
  split
  · simp only [List.map_map]
    refine List.map_congr_left fun n _ => ?_
    by_cases h : (n.commit.hexsha == c.hexsha) = true <;> simp [h, Function.comp]
  · simp

/-- Adding a commit preserves distinctness of the node hashes. -/
theorem addCommit_nodup (branchName : String) (acc : List CommitNode)
    (c : CommitRef) (h : (nodeHashes acc).Nodup) :
    (nodeHashes (addCommit branchName acc c)).Nodup := by
  rw [addCommit_hashes]
  split
  · exact h
  · rename_i hab
    have hnotin : c.hexsha ∉ nodeHashes acc := by
      intro hmem
      obtain ⟨n, hn, hh⟩ := List.mem_map.mp hmem
      exact hab (List.any_eq_true.mpr ⟨n, hn, by simp [hh]⟩)
    simp [List.nodup_append, h, hnotin]

/-- Merging branch histories keeps the node hashes pairwise distinct. -/
theorem foldCommits_nodup (branchName : String) (cs : List CommitRef) :
    ∀ acc : List CommitNode, (nodeHashes acc).Nodup →
      (nodeHashes (cs.foldl (addCommit branchName) acc)).Nodup := by
  induction cs with
  | nil => intro acc h; exact h
  | cons c rest ih =>
      intro acc h
      exact ih _ (addCommit_nodup branchName acc c h)

/-- The full merge keeps the node hashes pairwise distinct. -/
theorem foldAllBranches_nodup (branchHistories : List (String × List CommitRef)) :
    ∀ acc : List CommitNode, (nodeHashes acc).Nodup →
      (nodeHashes (foldAllBranches branchHistories acc)).Nodup := by
  induction branchHistories with
  | nil => intro acc h; exact h
  | cons b rest ih =>
      intro acc h
      exact ih _ (foldCommits_nodup b.1 b.2 acc h)

/-- Once a node carries hash `h` with branch `bn`, adding further commits
never removes either. -/
theorem addCommit_preserves (branchName : String) (acc : List CommitNode)
    (c : CommitRef) (h : String) (bn : String)
    (hw : ∃ n ∈ acc, n.commit.hexsha = h ∧ bn ∈ n.branches) :
    ∃ n ∈ addCommit branchName acc c, n.commit.hexsha = h ∧ bn ∈ n.branches := by
  obtain ⟨n, hn, hh, hb⟩ := hw
  unfold addCommit
  split
  · refine ⟨if n.commit.hexsha == c.hexsha then
      { n with branches := n.branches ++ [branchName] } else n, ?_, ?_⟩
    · exact List.mem_map_of_mem _ hn
    · by_cases hc : (n.commit.hexsha == c.hexsha) = true
      · rw [if_pos hc]
        exact ⟨hh, List.mem_append_left _ hb⟩
      · rw [if_neg hc]
        exact ⟨hh, hb⟩
  · exact ⟨n, List.mem_append_left _ hn, hh, hb⟩

/-- Adding a commit from a branch establishes a node with that hash carrying
that branch. -/
theorem addCommit_creates (branchName : String) (acc : List CommitNode)
    (c : CommitRef) :
    ∃ n ∈ addCommit branchName acc c,
      n.commit.hexsha = c.hexsha ∧ branchName ∈ n.branches := by
  unfold addCommit
  split
  · rename_i hany
    obtain ⟨n, hn, hh⟩ := List.any_eq_true.mp hany
    have hh' : n.commit.hexsha = c.hexsha := by simpa using hh
    refine ⟨{ n with branches := n.branches ++ [branchName] }, ?_, by simp [hh']⟩
    have : (if n.commit.hexsha == c.hexsha then
        { n with branches := n.branches ++ [branchName] } else n) =
        { n with branches := n.branches ++ [branchName] } := by simp [hh']
    exact this ▸ List.mem_map_of_mem _ hn
  · exact ⟨{ commit := c, branches := [branchName] }, by simp, rfl, by simp⟩

/-- Folding a commit list preserves an established node witness. -/
theorem foldCommits_preserves (branchName : String) (cs : List CommitRef)
    (h bn : String) :
    ∀ acc : List CommitNode,
      (∃ n ∈ acc, n.commit.hexsha = h ∧ bn ∈ n.branches) →
      ∃ n ∈ cs.foldl (addCommit branchName) acc,
        n.commit.hexsha = h ∧ bn ∈ n.branches := by
  induction cs with
  | nil => intro acc hw; exact hw
  | cons c rest ih =>
      intro acc hw
      exact ih _ (addCommit_preserves branchName acc c h bn hw)

/-- Folding a commit list containing `c` establishes a node with `c`'s hash
carrying the branch. -/
theorem foldCommits_creates (branchName : String) (cs : List CommitRef)
    (c : CommitRef) (hc : c ∈ cs) :
    ∀ acc : List CommitNode,
      ∃ n ∈ cs.foldl (addCommit branchName) acc,
        n.commit.hexsha = c.hexsha ∧ branchName ∈ n.branches := by
  induction cs with
  | nil => cases hc
  | cons x rest ih =>
      intro acc
      rcases List.mem_cons.mp hc with h | h
      · subst h
        exact foldCommits_preserves branchName rest c.hexsha branchName _
          (addCommit_creates branchName acc c)
      · exact ih h _

/-- The outer fold over branch histories preserves an established witness. -/
theorem foldAllBranches_preserves (branchHistories : List (String × List CommitRef))
    (h bn : String) :
    ∀ acc : List CommitNode,
      (∃ n ∈ acc, n.commit.hexsha = h ∧ bn ∈ n.branches) →
      ∃ n ∈ foldAllBranches branchHistories acc,
        n.commit.hexsha = h ∧ bn ∈ n.branches := by
  induction branchHistories with
  | nil => intro acc hw; exact hw
  | cons b rest ih =>
      intro acc hw
      exact ih _ (foldCommits_preserves b.1 b.2 h bn acc hw)

/-- Every commit of every branch history ends up, after the full merge, in a
node with its hash that carries that branch name. -/
theorem foldAllBranches_creates (branchHistories : List (String × List CommitRef))
    (bn : String) (cs : List CommitRef) (c : CommitRef)
    (hb : (bn, cs) ∈ branchHistories) (hc : c ∈ cs) :
    ∀ acc : List CommitNode,
      ∃ n ∈ foldAllBranches branchHistories acc,
        n.commit.hexsha = c.hexsha ∧ bn ∈ n.branches := by
  induction branchHistories with
  | nil => cases hb
  | cons b rest ih =>
      intro acc
      rcases List.mem_cons.mp hb with h | h
      · subst h
        exact foldAllBranches_preserves rest c.hexsha bn _
          (foldCommits_creates bn cs c hc acc)
      · exact ih h _

/-- C4: within one graph build, node hashes are pairwise distinct, and every
commit of every branch history is represented by a node with its hash whose
branch list contains that branch name — so a commit appearing in several
branch histories appears exactly once, with all those branch names. -/
theorem commit_graph_dedup (branchHistories : List (String × List CommitRef)) :
    (nodeHashes (draw_commit_graph_nodes branchHistories)).Nodup ∧
    ∀ (bn : String) (cs : List CommitRef) (c : CommitRef),
      (bn, cs) ∈ branchHistories → c ∈ cs →
      ∃ n ∈ draw_commit_graph_nodes branchHistories,
        n.commit.hexsha = c.hexsha ∧ bn ∈ n.branches := by
  constructor
  · have hperm : (draw_commit_graph_nodes branchHistories).Perm
        (mergeBranchCommits branchHistories) := List.perm_insertionSort _ _
    have hmerge : (nodeHashes (mergeBranchCommits branchHistories)).Nodup :=
      foldAllBranches_nodup branchHistories [] (by simp [nodeHashes])
    exact ((hperm.map _).nodup_iff).mpr hmerge
  · intro bn cs c hb hc
    obtain ⟨n, hn, hp⟩ := foldAllBranches_creates branchHistories bn cs c hb hc []
    exact ⟨n, (List.mem_insertionSort _).mpr hn, hp⟩

/-- C4 witness: the commit `bb` appears in the histories of both `main` and
`dev`; after the build a node with hash `bb` carries `dev`. -/
theorem commit_graph_dedup_witness :
    ∃ n ∈ draw_commit_graph_nodes
        [("main", [⟨"aa", 3⟩, ⟨"bb", 2⟩]), ("dev", [⟨"bb", 2⟩, ⟨"cc", 1⟩])],
      n.commit.hexsha = "bb" ∧ "dev" ∈ n.branches :=
  (commit_graph_dedup
      [("main", [⟨"aa", 3⟩, ⟨"bb", 2⟩]), ("dev", [⟨"bb", 2⟩, ⟨"cc", 1⟩])]).2
    "dev" [⟨"bb", 2⟩, ⟨"cc", 1⟩] ⟨"bb", 2⟩ (by decide) (by decide)

/-- C5 counterexample: two commits share the timestamp `5`; the build keeps
their insertion order `b` before `a`, which is not hash order. -/
theorem commit_graph_ties_not_hash_ordered :
    nodeHashes (draw_commit_graph_nodes [("main", [⟨"b", 5⟩, ⟨"a", 5⟩])]) =
      ["b", "a"] ∧
    (draw_commit_graph_nodes [("main", [⟨"b", 5⟩, ⟨"a", 5⟩])]).map
      (fun n => n.commit.timestamp) = [5, 5] ∧
    hashLe "b" "a" = false := by
  refine ⟨by decide, by decide, by decide⟩

/-- C5 (amended): the node list is sorted by timestamp descending
(non-strictly); entries with equal timestamps keep their merge order — the
sort is stable and breaks no ties by hash. -/
theorem commit_graph_sorted_desc (branchHistories : List (String × List CommitRef)) :
    (draw_commit_graph_nodes branchHistories).Pairwise
      (fun a b => b.commit.timestamp ≤ a.commit.timestamp) := by
  haveI : IsTotal CommitNode (fun a b => b.commit.timestamp ≤ a.commit.timestamp) :=
    ⟨fun a b => Int.le_total b.commit.timestamp a.commit.timestamp⟩
  haveI : IsTrans CommitNode (fun a b => b.commit.timestamp ≤ a.commit.timestamp) :=
    ⟨fun _ _ _ hab hbc => le_trans hbc hab⟩
  exact List.sorted_insertionSort _ (mergeBranchCommits branchHistories)

/-- C8 counterexample: on an input sequence that is not newest-first, the
timeline is the reverse of the input, not the reverse of the graph builder's
timestamp-sorted ordering. -/
theorem timeline_not_reverse_of_graph_order :
    draw_vertical_timeline_commits [⟨"a", 1⟩, ⟨"b", 2⟩] ≠
      (sortCommitsByDateDesc [⟨"a", 1⟩, ⟨"b", 2⟩]).reverse := by
  decide

/-- C8 (amended): the timeline is the exact reverse of its input sequence,
so it coincides with the reverse of the graph builder's default
(timestamp-descending) ordering exactly when the input sequence is already
sorted newest-first, as the external client delivers it. -/
theorem timeline_reverse_of_graph_order_of_sorted (allCommits : List CommitRef)
    (h : allCommits.Pairwise (fun a b => b.timestamp ≤ a.timestamp)) :
    draw_vertical_timeline_commits allCommits =
      (sortCommitsByDateDesc allCommits).reverse := by
  unfold draw_vertical_timeline_commits sortCommitsByDateDesc
  rw [List.Sorted.insertionSort_eq h]

/-- C8 witness: instantiation at a newest-first two-commit sequence. -/
theorem timeline_reverse_of_graph_order_of_sorted_witness :
    draw_vertical_timeline_commits [⟨"b", 2⟩, ⟨"a", 1⟩] =
      (sortCommitsByDateDesc [⟨"b", 2⟩, ⟨"a", 1⟩]).reverse :=
  timeline_reverse_of_graph_order_of_sorted [⟨"b", 2⟩, ⟨"a", 1⟩] (by decide)

/-- C9 counterexample: the path `a/m.txt` is still modified (non-clean) when
the delay elapses, yet it does not remain in the highlighted set — the source
clears the whole set unconditionally. -/
theorem clear_file_highlights_empties_set :
    cacheGet [("a/m.txt", FileStatus.MODIFIED)] (pyPathJoin "a" "m.txt") ≠
      FileStatus.CLEAN ∧
    (clear_file_highlights [("a/m.txt", FileStatus.MODIFIED)] "a"
        { fileTreeItems := [("m.txt", "modified_file")],
          highlightedFiles := ["a/m.txt"] }).highlightedFiles = [] := by
  refine ⟨by decide, rfl⟩

/-- C9 (amended): when the delayed callback fires, the highlighted set is
cleared wholesale, regardless of status; only the visual styling respects the
snapshot: a highlighted row whose current status is clean is restyled clean,
and a highlighted row whose status is still non-clean keeps its highlight
tag. -/
theorem clear_file_highlights_spec (cache : List (String × FileStatus))
    (folderPath : String) (s : HighlightState) :
    (clear_file_highlights cache folderPath s).highlightedFiles = [] ∧
    ∀ name tag, (name, tag) ∈ s.fileTreeItems →
      (highlightTags.contains tag = true →
        cacheGet cache (pyPathJoin folderPath name) = FileStatus.CLEAN →
        (name, "clean_file") ∈ (clear_file_highlights cache folderPath s).fileTreeItems) ∧
      (highlightTags.contains tag = true →
        cacheGet cache (pyPathJoin folderPath name) ≠ FileStatus.CLEAN →
        (name, tag) ∈ (clear_file_highlights cache folderPath s).fileTreeItems) := by
  refine ⟨rfl, ?_⟩
  intro name tag hmem
  constructor
  · intro htag hclean
    have hcond : (highlightTags.contains (name, tag).2 &&
        (cacheGet cache (pyPathJoin folderPath (name, tag).1) == FileStatus.CLEAN)) = true := by
      simp only [Bool.and_eq_true]
      exact ⟨htag, beq_iff_eq.mpr hclean⟩
    have heq : (if highlightTags.contains (name, tag).2 &&
          (cacheGet cache (pyPathJoin folderPath (name, tag).1) == FileStatus.CLEAN) then
            ((name, tag).1, "clean_file")
          else (name, tag)) = (name, "clean_file") := if_pos hcond
    exact heq ▸ List.mem_map_of_mem _ hmem
  · intro htag hdirty
    have hc2 : (cacheGet cache (pyPathJoin folderPath (name, tag).1) ==
        FileStatus.CLEAN) = false := by
      simp only [beq_eq_false_iff_ne, ne_eq]
      exact hdirty
    have hcond : (highlightTags.contains (name, tag).2 &&
        (cacheGet cache (pyPathJoin folderPath (name, tag).1) == FileStatus.CLEAN)) = false := by
      rw [hc2, Bool.and_false]
    have heq : (if highlightTags.contains (name, tag).2 &&
          (cacheGet cache (pyPathJoin folderPath (name, tag).1) == FileStatus.CLEAN) then
            ((name, tag).1, "clean_file")
          else (name, tag)) = (name, tag) := if_neg (ne_true_of_eq_false hcond)
    exact heq ▸ List.mem_map_of_mem _ hmem

/-- C9 witness: with `a/m.txt` still modified and `a/c.txt` clean, the clean
row is restyled, the modified row keeps its tag, and the set is emptied. -/
theorem clear_file_highlights_spec_witness :
    (clear_file_highlights [("a/m.txt", FileStatus.MODIFIED)] "a"
        { fileTreeItems := [("m.txt", "modified_file"), ("c.txt", "new_file")],
          highlightedFiles := ["a/m.txt"] }).highlightedFiles = [] ∧
    ("c.txt", "clean_file") ∈ (clear_file_highlights
        [("a/m.txt", FileStatus.MODIFIED)] "a"
        { fileTreeItems := [("m.txt", "modified_file"), ("c.txt", "new_file")],
          highlightedFiles := ["a/m.txt"] }).fileTreeItems ∧
    ("m.txt", "modified_file") ∈ (clear_file_highlights
        [("a/m.txt", FileStatus.MODIFIED)] "a"
        { fileTreeItems := [("m.txt", "modified_file"), ("c.txt", "new_file")],
          highlightedFiles := ["a/m.txt"] }).fileTreeItems :=
  ⟨(clear_file_highlights_spec [("a/m.txt", FileStatus.MODIFIED)] "a"
      { fileTreeItems := [("m.txt", "modified_file"), ("c.txt", "new_file")],
        highlightedFiles := ["a/m.txt"] }).1,
   ((clear_file_highlights_spec [("a/m.txt", FileStatus.MODIFIED)] "a"
      { fileTreeItems := [("m.txt", "modified_file"), ("c.txt", "new_file")],
        highlightedFiles := ["a/m.txt"] }).2 "c.txt" "new_file" (by decide)).1
      (by decide) (by decide),
   ((clear_file_highlights_spec [("a/m.txt", FileStatus.MODIFIED)] "a"
      { fileTreeItems := [("m.txt", "modified_file"), ("c.txt", "new_file")],
        highlightedFiles := ["a/m.txt"] }).2 "m.txt" "modified_file" (by decide)).2
      (by decide) (by decide)⟩

/-- A status found after a dict insertion is the inserted one or was already
present. -/
theorem dictInsert_status_mem (cache : List (String × FileStatus))
    (k : String) (v : FileStatus) (p : String) (st : FileStatus)
    (h : (p, st) ∈ dictInsert cache k v) :
    st = v ∨ ∃ q, (q, st) ∈ cache := by
  unfold dictInsert at h
  split at h
  · obtain ⟨e, he, hfe⟩ := List.mem_map.mp h
    by_cases hc : (e.1 == k) = true
    · rw [if_pos hc] at hfe
      left
      exact (Prod.mk.injEq .. ▸ hfe).2.symm ▸ rfl
    · rw [if_neg hc] at hfe
      right
      exact ⟨p, hfe ▸ he⟩
  · rcases List.mem_append.mp h with h | h
    · exact Or.inr ⟨p, h⟩
    · left
      have := List.mem_singleton.mp h
      exact ((Prod.mk.injEq .. ▸ this).2).symm ▸ rfl

/-- Every status in the cache after the loop is a decodable status, provided
the initial cache only held such statuses. -/
theorem processLines_statuses (repoPath : String) (lines : List String) :
    ∀ cache : List (String × FileStatus),
      (∀ p st, (p, st) ∈ cache → GoodStatus st) →
      ∀ p st, (p, st) ∈ (processLines repoPath lines cache).1 → GoodStatus st := by
  induction lines with
  | nil => intro cache h p st hm; exact h p st hm
  | cons line rest ih =>
      intro cache h p st hm
      by_cases hb : pyStripEmpty line = true
      · rw [show processLines repoPath (line :: rest) cache =
            processLines repoPath rest cache by simp [processLines, hb]] at hm
        exact ih cache h p st hm
      · have hb' : pyStripEmpty line = false := by
          cases hx : pyStripEmpty line
          · rfl
          · exact absurd hx hb
        match hd : line.data with
        | [] =>
            rw [show processLines repoPath (line :: rest) cache = (cache, true) by
              simp [processLines, hb', hd]] at hm
            exact h p st hm
        | [c] =>
            rw [show processLines repoPath (line :: rest) cache = (cache, true) by
              simp [processLines, hb', hd]] at hm
            exact h p st hm
        | c0 :: c1 :: t =>
            cases hdec : decode c0 c1 with
            | none =>
                rw [show processLines repoPath (line :: rest) cache =
                    processLines repoPath rest cache by
                  simp [processLines, hb', hd, hdec]] at hm
                exact ih cache h p st hm
            | some st0 =>
                have hgood : GoodStatus st0 := by
                  have hr := decode_range_cases c0 c1
                  rw [hdec] at hr
                  unfold GoodStatus
                  rcases hr with hr | hr | hr | hr | hr | hr
                  · simp at hr
                  · exact Or.inl (Option.some.inj hr)
                  · exact Or.inr (Or.inl (Option.some.inj hr))
                  · exact Or.inr (Or.inr (Or.inl (Option.some.inj hr)))
                  · exact Or.inr (Or.inr (Or.inr (Or.inl (Option.some.inj hr))))
                  · exact Or.inr (Or.inr (Or.inr (Or.inr (Option.some.inj hr))))
                rw [show processLines repoPath (line :: rest) cache =
                    processLines repoPath rest
                      (dictInsert cache (pyPathJoin repoPath (line.drop 3)) st0) by
                  simp [processLines, hb', hd, hdec]] at hm
                refine ih _ ?_ p st hm
                intro q stq hq
                rcases dictInsert_status_mem _ _ _ _ _ hq with hx | ⟨r, hr⟩
                · exact hx ▸ hgood
                · exact h r stq hr

/-- C10: the decoder never returns `RENAMED`, `COPIED` or `DELETED` — those
trailing branches are unreachable, because a first character `R`, `C` or `D`
is captured by the staged rules earlier and a second character `D` by the
staged or modified rules — and consequently every entry of a snapshot built
from any input lines holds one of `CONFLICTED`, `MODIFIED_STAGED`, `STAGED`,
`MODIFIED`, `NEW`. -/
theorem snapshot_status_range :
    (∀ c0 c1 : Char,
      decode c0 c1 ≠ some FileStatus.RENAMED ∧
      decode c0 c1 ≠ some FileStatus.COPIED ∧
      decode c0 c1 ≠ some FileStatus.DELETED) ∧
    (∀ (repoPath : String) (lines : List String) (p : String) (st : FileStatus),
      (p, st) ∈ (processLines repoPath lines []).1 → GoodStatus st) := by
  constructor
  · intro c0 c1
    rcases decode_range_cases c0 c1 with h | h | h | h | h | h <;> rw [h] <;>
      exact ⟨by simp, by simp, by simp⟩
  · intro repoPath lines p st hm
    exact processLines_statuses repoPath lines []
      (fun q stq hq => absurd hq (List.not_mem_nil _)) p st hm

/-- C10 witness: the snapshot of the line `M  a.txt` contains `r/a.txt` with
the decodable status `STAGED`. -/
theorem snapshot_status_range_witness :
    GoodStatus FileStatus.STAGED :=
  snapshot_status_range.2 "r" ["M  a.txt"] "r/a.txt" FileStatus.STAGED (by decide)
